import Mathlib

/-!
# Verification of the morsify crate (`src/lib.rs`)

A shallow embedding of the morsify Morse-code library.  Text is modelled as
`List Char`; Rust's `BTreeMap` is modelled as an association list kept sorted
by key, built by successive inserts exactly as in the source.  All functions
are computable and mirror the source line by line.
-/

namespace Morsify

/-- Text / Rust `String`, modelled as a list of characters. -/
abbrev Str := List Char

/-- Modelled from the Rust standard library: `char::is_whitespace`, i.e. the
Unicode `White_Space` property (the full, finite list of code points). -/
def isWhitespace (c : Char) : Bool :=
  [0x09, 0x0A, 0x0B, 0x0C, 0x0D, 0x20, 0x85, 0xA0, 0x1680,
   0x2000, 0x2001, 0x2002, 0x2003, 0x2004, 0x2005, 0x2006, 0x2007,
   0x2008, 0x2009, 0x200A, 0x2028, 0x2029, 0x202F, 0x205F, 0x3000].contains c.toNat

/-- Extra single-character uppercase mappings (Latin Extended-A and the
Cyrillic letters outside the contiguous `а`..`я` block). -/
def upperMapExt : List (Char × Char) :=
  [('ą', 'Ą'), ('ć', 'Ć'), ('ĉ', 'Ĉ'), ('č', 'Č'), ('ę', 'Ę'), ('ğ', 'Ğ'),
   ('ĝ', 'Ĝ'), ('ĥ', 'Ĥ'), ('ı', 'I'), ('ĵ', 'Ĵ'), ('ł', 'Ł'), ('ń', 'Ń'),
   ('ś', 'Ś'), ('ş', 'Ş'), ('ș', 'Ș'), ('š', 'Š'), ('ŝ', 'Ŝ'), ('ŭ', 'Ŭ'),
   ('ž', 'Ž'), ('ź', 'Ź'), ('ż', 'Ż')]

/-- Modelled from the Rust standard library: the Unicode uppercase mapping
used by `str::to_uppercase`, restricted to the character ranges relevant to
the crate's tables (ASCII, Latin-1, Latin Extended-A, Greek, Cyrillic); every
other character maps to itself.  A character may uppercase to several
characters (`ß` to `SS`). -/
def upperChar (c : Char) : Str :=
  if 0x61 ≤ c.toNat ∧ c.toNat ≤ 0x7A then [Char.ofNat (c.toNat - 0x20)]
  else if c.toNat = 0xDF then ['S', 'S']
  else if c.toNat = 0xB5 then [Char.ofNat 0x39C]
  else if 0xE0 ≤ c.toNat ∧ c.toNat ≤ 0xFE ∧ c.toNat ≠ 0xF7 then [Char.ofNat (c.toNat - 0x20)]
  else if c.toNat = 0xFF then [Char.ofNat 0x178]
  else if 0x3B1 ≤ c.toNat ∧ c.toNat ≤ 0x3C1 then [Char.ofNat (c.toNat - 0x20)]
  else if c.toNat = 0x3C2 then [Char.ofNat 0x3A3]
  else if 0x3C3 ≤ c.toNat ∧ c.toNat ≤ 0x3CB then [Char.ofNat (c.toNat - 0x20)]
  else if 0x430 ≤ c.toNat ∧ c.toNat ≤ 0x44F then [Char.ofNat (c.toNat - 0x20)]
  else if c.toNat = 0x451 then [Char.ofNat 0x401]
  else if c.toNat = 0x454 then [Char.ofNat 0x404]
  else if c.toNat = 0x456 then [Char.ofNat 0x406]
  else if c.toNat = 0x457 then [Char.ofNat 0x407]
  else if c.toNat = 0x491 then [Char.ofNat 0x490]
  else
    match upperMapExt.lookup c with
    | some u => [u]
    | none => [c]

/-- Modelled from the Rust standard library: `str::to_uppercase` (pointwise,
as the Unicode uppercase mapping is context-free on the ranges involved). -/
def toUpperStr (s : Str) : Str := (s.map upperChar).flatten

/-- Modelled from the Rust standard library: `str::replace` with a character
predicate as the pattern — every matching character is replaced (one by one,
runs are not collapsed) by the replacement string. -/
def replaceIf (p : Char → Bool) (r : Str) : Str → Str
  | [] => []
  | c :: rest => (if p c then r else [c]) ++ replaceIf p r rest

/-- Modelled from the Rust standard library: `str::trim_start`. -/
def trimLeft : Str → Str
  | [] => []
  | c :: rest => if isWhitespace c then trimLeft rest else c :: rest

/-- Modelled from the Rust standard library: `str::trim` (whitespace stripped
from both ends). -/
def trimStr (s : Str) : Str := ((trimLeft (trimLeft s).reverse)).reverse

/-- Modelled from the Rust standard library: `str::split` on a single
character.  Splitting the empty string yields one empty piece, exactly as in
Rust. -/
def splitSep (sep : Char) : Str → List Str
  | [] => [[]]
  | c :: rest =>
    if c = sep then [] :: splitSep sep rest
    else
      match splitSep sep rest with
      | u :: us => (c :: u) :: us
      | [] => [[c]]

/-- `MorseCharacterSet` from the source: the script tags, in declaration
order (which is the `Ord` order used by the `BTreeMap`s). -/
inductive MorseCharacterSet where
  | Undefined
  | Latin
  | Numbers
  | Punctuation
  | LatinExtended
  | Cyrillic
  | Greek
  | Hebrew
  | Arabic
  | Persian
  | Japanese
  | Korean
  | Thai
deriving DecidableEq

/-- The discriminant of a tag (`#[repr(usize)]`, declaration order), which is
what the derived Rust `Ord` instance compares. -/
def MorseCharacterSet.idx : MorseCharacterSet → Nat
  | .Undefined => 0
  | .Latin => 1
  | .Numbers => 2
  | .Punctuation => 3
  | .LatinExtended => 4
  | .Cyrillic => 5
  | .Greek => 6
  | .Hebrew => 7
  | .Arabic => 8
  | .Persian => 9
  | .Japanese => 10
  | .Korean => 11
  | .Thai => 12

/-- An inner `BTreeMap<char, String>`: an association list sorted by key. -/
abbrev Table := List (Char × Str)

/-- `BTreeMap::insert` for an inner table: keeps keys sorted (by code point,
as Rust's `Ord for char`), replacing the value if the key is present. -/
def Table.insert : Table → Char → Str → Table
  | [], k, v => [(k, v)]
  | (k', v') :: rest, k, v =>
    if k < k' then (k, v) :: (k', v') :: rest
    else if k = k' then (k, v) :: rest
    else (k', v') :: Table.insert rest k v

/-- Builds an inner table by inserting the given entries in order, exactly as
the source builds each `BTreeMap` by successive `insert` calls. -/
def tbl (l : List (Char × String)) : Table :=
  l.foldl (fun t p => t.insert p.1 p.2.data) []

/-- The outer `Characters` map: `BTreeMap<MorseCharacterSet, BTreeMap<char,
String>>`, an association list sorted by tag discriminant. -/
abbrev Characters := List (MorseCharacterSet × Table)

/-- `BTreeMap::insert` for the outer map (ordered by tag discriminant). -/
def Characters.insert : Characters → MorseCharacterSet → Table → Characters
  | [], k, v => [(k, v)]
  | (k', v') :: rest, k, v =>
    if k.idx < k'.idx then (k, v) :: (k', v') :: rest
    else if k = k' then (k, v) :: rest
    else (k', v') :: Characters.insert rest k v

/-- `BTreeMap::get` for the outer map. -/
def Characters.get? (m : Characters) (k : MorseCharacterSet) : Option Table :=
  List.lookup k m

/-- `Options` from the source (fields in declaration order). -/
structure Options where
  dash : Char
  dot : Char
  space : Char
  separator : Char
  priority : MorseCharacterSet
  invalid_char_callback : Char → Char

/-- `Options::default()` from the source. -/
def Options.default : Options :=
  { dash := '-', dot := '.', space := '/', separator := ' ',
    priority := .Latin, invalid_char_callback := fun c => c }

/-- `latin_chars` from the source. -/
def latin_chars : Table := tbl
  [('A', "01"), ('B', "1000"), ('C', "1010"), ('D', "100"), ('E', "0"),
   ('F', "0010"), ('G', "110"), ('H', "0000"), ('I', "00"), ('J', "0111"),
   ('K', "101"), ('L', "0100"), ('M', "11"), ('N', "10"), ('O', "111"),
   ('P', "0110"), ('Q', "1101"), ('R', "010"), ('S', "000"), ('T', "1"),
   ('U', "001"), ('V', "0001"), ('W', "011"), ('X', "1001"), ('Y', "1011"),
   ('Z', "1100")]

/-- `numbers_chars` from the source. -/
def numbers_chars : Table := tbl
  [('0', "11111"), ('1', "01111"), ('2', "00111"), ('3', "00011"),
   ('4', "00001"), ('5', "00000"), ('6', "10000"), ('7', "11000"),
   ('8', "11100"), ('9', "11110")]

/-- `punctuation_chars` from the source (the apostrophe and the double quote
are written by code point). -/
def punctuation_chars : Table := tbl
  [('.', "010101"), (',', "110011"), ('?', "001100"), (Char.ofNat 39, "011110"),
   ('!', "101011"), ('/', "10010"), ('(', "10110"), (')', "101101"),
   ('&', "01000"), (':', "111000"), (';', "101010"), ('=', "10001"),
   ('+', "01010"), ('-', "100001"), ('_', "001101"), (Char.ofNat 34, "010010"),
   ('$', "0001001"), ('@', "011010"), ('¿', "00101"), ('¡', "110001")]

/-- `latin_extended_chars` from the source. -/
def latin_extended_chars : Table := tbl
  [('Ã', "01101"), ('Á', "01101"), ('Å', "01101"), ('À', "01101"),
   ('Â', "01101"), ('Ä', "0101"), ('Ą', "0101"), ('Æ', "0101"),
   ('Ç', "10100"), ('Ć', "10100"), ('Ĉ', "10100"), ('Č', "110"),
   ('Ð', "00110"), ('È', "01001"), ('Ę', "00100"), ('Ë', "00100"),
   ('É', "00100"), ('Ê', "10010"), ('Ğ', "11010"), ('Ĝ', "11010"),
   ('Ĥ', "1111"), ('İ', "01001"), ('Ï', "10011"), ('Ì', "01110"),
   ('Ĵ', "01110"), ('Ł', "01001"), ('Ń', "11011"), ('Ñ', "11011"),
   ('Ó', "1110"), ('Ò', "1110"), ('Ö', "1110"), ('Ô', "1110"),
   ('Ø', "1110"), ('Ś', "0001000"), ('Ş', "01100"), ('Ș', "1111"),
   ('Š', "1111"), ('Ŝ', "00010"), ('ß', "000000"), ('Þ', "01100"),
   ('Ü', "0011"), ('Ù', "0011"), ('Ŭ', "0011"), ('Ž', "11001"),
   ('Ź', "110010"), ('Ż', "11001")]

/-- `cyrillic_chars` from the source. -/
def cyrillic_chars : Table := tbl
  [('А', "01"), ('Б', "1000"), ('В', "011"), ('Г', "110"), ('Д', "100"),
   ('Е', "0"), ('Ж', "0001"), ('З', "1100"), ('И', "00"), ('Й', "0111"),
   ('К', "101"), ('Л', "0100"), ('М', "11"), ('Н', "10"), ('О', "111"),
   ('П', "0110"), ('Р', "010"), ('С', "000"), ('Т', "1"), ('У', "001"),
   ('Ф', "0010"), ('Х', "0000"), ('Ц', "1010"), ('Ч', "1110"),
   ('Ш', "1111"), ('Щ', "1101"), ('Ъ', "11011"), ('Ы', "1011"),
   ('Ь', "1001"), ('Э', "00100"), ('Ю', "0011"), ('Я', "0101"),
   ('Ї', "01110"), ('Є', "00100"), ('І', "00"), ('Ґ', "110")]

/-- `greek_chars` from the source. -/
def greek_chars : Table := tbl
  [('Α', "01"), ('Β', "1000"), ('Γ', "110"), ('Δ', "100"), ('Ε', "0"),
   ('Ζ', "1100"), ('Η', "0000"), ('Θ', "1010"), ('Ι', "00"), ('Κ', "101"),
   ('Λ', "0100"), ('Μ', "11"), ('Ν', "10"), ('Ξ', "1001"), ('Ο', "111"),
   ('Π', "0110"), ('Ρ', "010"), ('Σ', "000"), ('Τ', "1"), ('Υ', "1011"),
   ('Φ', "0010"), ('Χ', "1111"), ('Ψ', "1101"), ('Ω', "011")]

/-- `hebrew_chars` from the source. -/
def hebrew_chars : Table := tbl
  [('א', "01"), ('ב', "1000"), ('ג', "110"), ('ד', "100"), ('ה', "111"),
   ('ו', "0"), ('ז', "1100"), ('ח', "0000"), ('ט', "001"), ('י', "00"),
   ('כ', "101"), ('ל', "0100"), ('מ', "11"), ('נ', "10"), ('ס', "1010"),
   ('ע', "0111"), ('פ', "0110"), ('צ', "011"), ('ק', "1101"), ('ר', "010"),
   ('ש', "000"), ('ת', "1")]

/-- `arabic_chars` from the source. -/
def arabic_chars : Table := tbl
  [('ا', "01"), ('ب', "1000"), ('ت', "1"), ('ث', "1010"), ('ج', "0111"),
   ('ح', "0000"), ('خ', "111"), ('د', "100"), ('ذ', "1100"), ('ر', "010"),
   ('ز', "1110"), ('س', "000"), ('ش', "1111"), ('ص', "1001"), ('ض', "0001"),
   ('ط', "001"), ('ظ', "1011"), ('ع', "0101"), ('غ', "110"), ('ف', "0010"),
   ('ق', "1101"), ('ك', "101"), ('ل', "0100"), ('م', "11"), ('ن', "10"),
   ('ه', "00100"), ('و', "011"), ('ي', "00"), ('ﺀ', "0")]

/-- `persian_chars` from the source. -/
def persian_chars : Table := tbl
  [('ا', "01"), ('ب', "1000"), ('پ', "0110"), ('ت', "1"), ('ث', "1010"),
   ('ج', "0111"), ('چ', "1110"), ('ح', "0000"), ('خ', "1001"), ('د', "100"),
   ('ذ', "0001"), ('ر', "010"), ('ز', "1100"), ('ژ', "110"), ('س', "000"),
   ('ش', "1111"), ('ص', "0101"), ('ض', "00100"), ('ط', "001"), ('ظ', "1011"),
   ('ع', "111"), ('غ', "0011"), ('ف', "0010"), ('ق', "111000"), ('ک', "101"),
   ('گ', "1101"), ('ل', "0100"), ('م', "11"), ('ن', "10"), ('و', "011"),
   ('ه', "0"), ('ی', "00")]

/-- `japanese_chars` from the source. -/
def japanese_chars : Table := tbl
  [('ア', "11011"), ('カ', "0100"), ('サ', "10101"), ('タ', "10"),
   ('ナ', "010"), ('ハ', "1000"), ('マ', "1001"), ('ヤ', "011"),
   ('ラ', "000"), ('ワ', "101"), ('イ', "01"), ('キ', "10100"),
   ('シ', "11010"), ('チ', "0010"), ('ニ', "1010"), ('ヒ', "11001"),
   ('ミ', "00101"), ('リ', "110"), ('ヰ', "01001"), ('ウ', "001"),
   ('ク', "0001"), ('ス', "11101"), ('ツ', "0110"), ('ヌ', "0000"),
   ('フ', "1100"), ('ム', "1"), ('ユ', "10011"), ('ル', "10110"),
   ('ン', "01010"), ('エ', "10111"), ('ケ', "1011"), ('セ', "01110"),
   ('テ', "01011"), ('ネ', "1101"), ('ヘ', "0"), ('メ', "10001"),
   ('レ', "111"), ('ヱ', "01100"), ('オ', "01000"), ('コ', "1111"),
   ('ソ', "1110"), ('ト', "00100"), ('ノ', "0011"), ('ホ', "100"),
   ('モ', "10010"), ('ヨ', "11"), ('ロ', "0101"), ('ヲ', "0111"),
   ('゛', "00"), ('゜', "00110"), ('。', "010100"), ('ー', "01101"),
   ('、', "010101"), ('（', "101101"), ('）', "010010")]

/-- `korean_chars` from the source. -/
def korean_chars : Table := tbl
  [('ㄱ', "0100"), ('ㄴ', "0010"), ('ㄷ', "1000"), ('ㄹ', "0001"),
   ('ㅁ', "11"), ('ㅂ', "011"), ('ㅅ', "110"), ('ㅇ', "101"),
   ('ㅈ', "0110"), ('ㅊ', "1010"), ('ㅋ', "1001"), ('ㅌ', "1100"),
   ('ㅍ', "111"), ('ㅎ', "0111"), ('ㅏ', "0"), ('ㅑ', "00"), ('ㅓ', "1"),
   ('ㅕ', "000"), ('ㅗ', "01"), ('ㅛ', "10"), ('ㅜ', "0000"), ('ㅠ', "010"),
   ('ㅡ', "100"), ('ㅣ', "001")]

/-- `thai_chars` from the source. -/
def thai_chars : Table := tbl
  [('ก', "110"), ('ข', "1010"), ('ค', "101"), ('ง', "10110"),
   ('จ', "10010"), ('ฉ', "1111"), ('ช', "1001"), ('ซ', "1100"),
   ('ญ', "0111"), ('ด', "100"), ('ต', "1"), ('ถ', "10100"),
   ('ท', "10011"), ('น', "10"), ('บ', "1000"), ('ป', "0110"),
   ('ผ', "1101"), ('ฝ', "10101"), ('พ', "01100"), ('ฟ', "0010"),
   ('ม', "11"), ('ย', "1011"), ('ร', "010"), ('ล', "0100"), ('ว', "011"),
   ('ส', "000"), ('ห', "0000"), ('อ', "10001"), ('ฮ', "11011"),
   ('ฤ', "01011"), ('ะ', "01000"), ('า', "01"), ('ิ', "00100"),
   ('ี', "00"), ('ึ', "00110"), ('ื', "0011"), ('ุ', "00101"),
   ('ู', "1110"), ('เ', "0"), ('แ', "0101"), ('ไ', "01001"),
   ('โ', "111"), ('ำ', "00010"), ('่', "001"), ('้', "0001"),
   ('๊', "11000"), ('๋', "01010"), ('ั', "01101"), ('็', "11100"),
   ('์', "11001"), ('ๆ', "10111"), ('ฯ', "11010")]

/-- `base_characters` from the source: insert every per-script table into the
outer map (the final re-collection in the source is the identity on the
model). -/
def base_characters : Characters :=
  let characters : Characters := []
  let characters := characters.insert .Latin latin_chars
  let characters := characters.insert .Numbers numbers_chars
  let characters := characters.insert .Punctuation punctuation_chars
  let characters := characters.insert .LatinExtended latin_extended_chars
  let characters := characters.insert .Cyrillic cyrillic_chars
  let characters := characters.insert .Greek greek_chars
  let characters := characters.insert .Hebrew hebrew_chars
  let characters := characters.insert .Arabic arabic_chars
  let characters := characters.insert .Persian persian_chars
  let characters := characters.insert .Japanese japanese_chars
  let characters := characters.insert .Korean korean_chars
  let characters := characters.insert .Thai thai_chars
  characters

/-- `get_characters` from the source: clone the base tables, overlay a copy
of the priority table under the `Undefined` tag when the base set has one,
and extend the Latin table with the synthetic entry mapping the separator
glyph to the word-space glyph. -/
def get_characters (options : Options) : Characters :=
  let characters := base_characters
  let characters :=
    match base_characters.get? options.priority with
    | some priority_set => characters.insert .Undefined priority_set
    | none => characters
  let characters :=
    match base_characters.get? .Latin with
    | some set_1 => characters.insert .Latin
        (set_1.insert options.separator [options.space])
    | none => characters
  characters

/-- The two-step glyph substitution applied to rendered output: `0` to the
dot glyph, then `1` to the dash glyph (`str::replace` twice, as in the
source). -/
def render01 (options : Options) (s : Str) : Str :=
  replaceIf (fun c => c == '1') [options.dash]
    (replaceIf (fun c => c == '0') [options.dot] s)

/-- `get_mapped_characters` from the source: every pattern rendered into the
configured dot/dash glyphs (keys unchanged, so sorted order is preserved). -/
def get_mapped_characters (options : Options) : Characters :=
  (get_characters options).map
    (fun st => (st.1, st.2.map (fun kv => (kv.1, render01 options kv.2))))

/-- One step of building the reverse index: `swapped.entry(value).or_insert(key)`
— insert only if the pattern is not yet claimed.  (The `BTreeMap<String, char>`
is modelled as an association list; since insertion only ever happens for an
absent key, its `get` does not depend on the key order, so the new pair is
appended.) -/
def swapInsert (m : List (Str × Char)) (q : Str) (c : Char) : List (Str × Char) :=
  match m.lookup q with
  | some _ => m
  | none => m ++ [(q, c)]

/-- `swap_characters` from the source: fold over the rendered tables in tag
order, and over each table's entries in key order, first writer wins. -/
def swap_characters (options : Options) : List (Str × Char) :=
  (get_mapped_characters options).foldl
    (fun swapped st => st.2.foldl (fun sw kv => swapInsert sw kv.2 kv.1) swapped)
    []

/-- `MorseCode` from the source. -/
structure MorseCode where
  options : Options
  characters : Characters

/-- `MorseCode::new` from the source. -/
def MorseCode.new (options : Options) : MorseCode :=
  { options := options, characters := get_characters options }

/-- The per-character table scan of `encode`: `for set in
self.characters.values()`, values in tag order, first table containing the
character wins. -/
def lookupChar : Characters → Char → Option Str
  | [], _ => none
  | (_, t) :: rest, c =>
    match List.lookup c t with
    | some encoded => some encoded
    | none => lookupChar rest c

/-- The preprocessing of `encode`: replace every whitespace character by the
separator glyph, trim, uppercase. -/
def processedText (options : Options) (text : Str) : Str :=
  toUpperStr (trimStr (replaceIf isWhitespace [options.separator] text))

/-- The main loop of `encode`: per character, push the first table's pattern
(or the invalid-character callback's substitute), then push the separator. -/
def encodeRaw (mc : MorseCode) : Str → Str
  | [] => []
  | character :: rest =>
    (match lookupChar mc.characters character with
     | some encoded => encoded
     | none => [mc.options.invalid_char_callback character]) ++
    mc.options.separator :: encodeRaw mc rest

/-- `MorseCode::encode` from the source: preprocess, loop, substitute the
dot/dash glyphs for `0`/`1` over the whole result, then pop one trailing
separator if the (nonempty) result ends with it. -/
def MorseCode.encode (mc : MorseCode) (text : Str) : Str :=
  let result := encodeRaw mc (processedText mc.options text)
  let result := render01 mc.options result
  if result ≠ [] ∧ result.getLast? = some mc.options.separator then
    result.dropLast
  else result

/-- `MorseCode::decode` from the source: rebuild the reverse index, replace
whitespace by the separator, trim, split on the separator, look up each unit
(unresolved units pass through verbatim), and concatenate. -/
def MorseCode.decode (mc : MorseCode) (morse : Str) : Str :=
  let swapped := swap_characters mc.options
  ((splitSep mc.options.separator
      (trimStr (replaceIf isWhitespace [mc.options.separator] morse))).map
    (fun characters =>
      match swapped.lookup characters with
      | some c => [c]
      | none => characters)).flatten

/-! ## Generic lemmas about the string primitives -/

/-- The characterwise glyph substitution that `render01` performs
(`0` to dot, then `1` to dash, sequentially). -/
def rho (o : Options) (c : Char) : Char :=
  if (if c == '0' then o.dot else c) == '1' then o.dash
  else (if c == '0' then o.dot else c)

theorem replaceIf_append (p : Char → Bool) (r : Str) (a b : Str) :
    replaceIf p r (a ++ b) = replaceIf p r a ++ replaceIf p r b := by
  induction a with
  | nil => rfl
  | cons c rest ih => simp [replaceIf, ih]

theorem replaceIf_singleton (p : Char → Bool) (x : Char) (s : Str) :
    replaceIf p [x] s = s.map (fun c => if p c then x else c) := by
  induction s with
  | nil => rfl
  | cons c rest ih =>
    by_cases h : p c <;> simp [replaceIf, h, ih]

theorem replaceIf_self (p : Char → Bool) (a : Char) (s : Str)
    (h : ∀ c ∈ s, p c = true → c = a) : replaceIf p [a] s = s := by
  induction s with
  | nil => rfl
  | cons c rest ih =>
    have hc := h c (List.mem_cons_self ..)
    have hr : replaceIf p [a] rest = rest :=
      ih (fun c hcm => h c (List.mem_cons_of_mem _ hcm))
    by_cases hp : p c
    · simp [replaceIf, hp, hc hp, hr]
    · simp [replaceIf, hp, hr]

theorem render01_eq_map (o : Options) (s : Str) :
    render01 o s = s.map (rho o) := by
  simp only [render01, replaceIf_singleton, List.map_map]
  rfl

theorem rho_zero (o : Options) (h : o.dot ≠ '1') : rho o '0' = o.dot := by
  simp [rho, h]

theorem rho_one (o : Options) : rho o '1' = o.dash := by
  simp [rho]

theorem rho_of_not01 (o : Options) (c : Char) (h0 : c ≠ '0') (h1 : c ≠ '1') :
    rho o c = c := by
  simp [rho, h0, h1]

/-- A pattern over `{0,1}`. -/
def all01 (s : Str) : Prop := ∀ c ∈ s, c = '0' ∨ c = '1'

theorem rho_mem_dotdash (o : Options) (c : Char) (h : c = '0' ∨ c = '1') :
    rho o c = o.dot ∨ rho o c = o.dash := by
  rcases h with h | h <;> subst h <;> by_cases hd : o.dot = '1' <;> simp [rho, hd]

theorem render01_chars (o : Options) (s : Str) (h : all01 s) :
    ∀ c ∈ render01 o s, c = o.dot ∨ c = o.dash := by
  rw [render01_eq_map]
  intro c hc
  rcases List.mem_map.mp hc with ⟨d, hd, rfl⟩
  exact rho_mem_dotdash o d (h d hd)

theorem render01_length (o : Options) (s : Str) :
    (render01 o s).length = s.length := by
  rw [render01_eq_map, List.length_map]

theorem render01_ne_nil (o : Options) (s : Str) (h : s ≠ []) :
    render01 o s ≠ [] := by
  intro hc
  exact h (List.eq_nil_of_length_eq_zero (by rw [← render01_length o s, hc]; rfl))

theorem rho_inj01 (o : Options) (hdd : o.dot ≠ o.dash) (hd1 : o.dot ≠ '1')
    (a b : Char) (ha : a = '0' ∨ a = '1') (hb : b = '0' ∨ b = '1')
    (h : rho o a = rho o b) : a = b := by
  rcases ha with ha | ha <;> rcases hb with hb | hb <;> subst ha <;> subst hb
  · rfl
  · rw [rho_zero o hd1, rho_one] at h; exact absurd h hdd
  · rw [rho_zero o hd1, rho_one] at h; exact absurd h.symm hdd
  · rfl

theorem render01_inj01 (o : Options) (hdd : o.dot ≠ o.dash) (hd1 : o.dot ≠ '1') :
    ∀ (a b : Str), all01 a → all01 b → render01 o a = render01 o b → a = b := by
  intro a
  induction a with
  | nil =>
    intro b _ _ h
    rw [render01_eq_map, render01_eq_map] at h
    cases b with
    | nil => rfl
    | cons c rest => simp at h
  | cons c rest ih =>
    intro b ha hb h
    rw [render01_eq_map, render01_eq_map] at h
    cases b with
    | nil => simp at h
    | cons d drest =>
      simp only [List.map_cons, List.cons.injEq] at h
      have hc : c = d :=
        rho_inj01 o hdd hd1 c d (ha c (List.mem_cons_self ..))
          (hb d (List.mem_cons_self ..)) h.1
      have hrest : rest = drest := by
        apply ih drest (fun x hx => ha x (List.mem_cons_of_mem _ hx))
          (fun x hx => hb x (List.mem_cons_of_mem _ hx))
        rw [render01_eq_map, render01_eq_map]
        exact h.2
      rw [hc, hrest]

theorem render01_not01_fixed (o : Options) (c : Char) (h0 : c ≠ '0') (h1 : c ≠ '1') :
    render01 o [c] = [c] := by
  rw [render01_eq_map]
  simp [rho_of_not01 o c h0 h1]

theorem trimLeft_of_head (s : Str)
    (h : ∀ c, s.head? = some c → isWhitespace c = false) : trimLeft s = s := by
  cases s with
  | nil => rfl
  | cons c rest => simp [trimLeft, h c rfl]

theorem trimStr_of_ends (s : Str)
    (hh : ∀ c, s.head? = some c → isWhitespace c = false)
    (hl : ∀ c, s.getLast? = some c → isWhitespace c = false) :
    trimStr s = s := by
  unfold trimStr
  rw [trimLeft_of_head s hh, trimLeft_of_head s.reverse
    (fun c hc => hl c (by rwa [List.head?_reverse] at hc)), List.reverse_reverse]

/-! ## Joining and splitting on the separator -/

/-- Units joined with one separator between consecutive units. -/
def interSep (sep : Char) : List Str → Str
  | [] => []
  | [u] => u
  | u :: us => u ++ sep :: interSep sep us

/-- Units joined with one separator after every unit (the raw form produced
by the encode loop before the trailing separator is popped). -/
def joinSep (sep : Char) (us : List Str) : Str :=
  (us.map (· ++ [sep])).flatten

theorem joinSep_eq_interSep (sep : Char) (us : List Str) (h : us ≠ []) :
    joinSep sep us = interSep sep us ++ [sep] := by
  induction us with
  | nil => exact absurd rfl h
  | cons u us ih =>
    cases us with
    | nil => simp [joinSep, interSep]
    | cons v vs =>
      simp only [joinSep, List.map_cons, List.flatten_cons] at *
      rw [ih (by simp)]
      simp [interSep]

theorem splitSep_no_sep (sep : Char) (u : Str) (h : sep ∉ u) :
    splitSep sep u = [u] := by
  induction u with
  | nil => rfl
  | cons c rest ih =>
    have hc : c ≠ sep := fun hc => h (hc ▸ List.mem_cons_self ..)
    have hr := ih (fun hm => h (List.mem_cons_of_mem _ hm))
    simp [splitSep, hc, hr]

theorem splitSep_append_sep (sep : Char) (u t : Str) (h : sep ∉ u) :
    splitSep sep (u ++ sep :: t) = u :: splitSep sep t := by
  induction u with
  | nil => simp [splitSep]
  | cons c rest ih =>
    have hc : c ≠ sep := fun hc => h (hc ▸ List.mem_cons_self ..)
    have hr := ih (fun hm => h (List.mem_cons_of_mem _ hm))
    simp only [List.cons_append, splitSep, hc, if_false]
    rw [show rest.append (sep :: t) = rest ++ sep :: t from rfl, hr]

theorem splitSep_interSep (sep : Char) (us : List Str) (h : us ≠ [])
    (hs : ∀ u ∈ us, sep ∉ u) : splitSep sep (interSep sep us) = us := by
  induction us with
  | nil => exact absurd rfl h
  | cons u us ih =>
    cases us with
    | nil => exact splitSep_no_sep sep u (hs u (List.mem_cons_self ..))
    | cons v vs =>
      show splitSep sep (u ++ sep :: interSep sep (v :: vs)) = _
      rw [splitSep_append_sep sep u _ (hs u (List.mem_cons_self ..)),
        ih (by simp) (fun w hw => hs w (List.mem_cons_of_mem _ hw))]

theorem interSep_ne_nil (sep : Char) (u : Str) (us : List Str) (hu : u ≠ []) :
    interSep sep (u :: us) ≠ [] := by
  cases us with
  | nil => exact hu
  | cons v vs => simp [interSep]

theorem mem_interSep (sep : Char) (us : List Str) (c : Char)
    (h : c ∈ interSep sep us) : c = sep ∨ ∃ u ∈ us, c ∈ u := by
  induction us with
  | nil => simp [interSep] at h
  | cons u us ih =>
    cases us with
    | nil => exact Or.inr ⟨u, List.mem_cons_self .., h⟩
    | cons v vs =>
      simp only [interSep, List.mem_append, List.mem_cons] at h
      rcases h with h | h | h
      · exact Or.inr ⟨u, List.mem_cons_self .., h⟩
      · exact Or.inl h
      · rcases ih h with h | ⟨w, hw, hc⟩
        · exact Or.inl h
        · exact Or.inr ⟨w, List.mem_cons_of_mem _ hw, hc⟩

theorem head?_interSep (sep : Char) (u : Str) (us : List Str) (hu : u ≠ []) :
    (interSep sep (u :: us)).head? = u.head? := by
  cases us with
  | nil => rfl
  | cons v vs =>
    show (u ++ sep :: interSep sep (v :: vs)).head? = u.head?
    cases u with
    | nil => exact absurd rfl hu
    | cons c rest => rfl

theorem getLast?_cons_ne (c : Char) (l : Str) (h : l ≠ []) :
    (c :: l).getLast? = l.getLast? := by
  rw [show (c :: l) = [c] ++ l from rfl, List.getLast?_append]
  cases hx : l.getLast? with
  | none => exact absurd (List.getLast?_eq_none_iff.mp hx) h
  | some x => rfl

theorem getLast?_interSep (sep : Char) (us : List Str) (h : us ≠ [])
    (hs : ∀ u ∈ us, u ≠ []) :
    ∃ u ∈ us, (interSep sep us).getLast? = u.getLast? := by
  induction us with
  | nil => exact absurd rfl h
  | cons u us ih =>
    cases us with
    | nil => exact ⟨u, List.mem_cons_self .., rfl⟩
    | cons v vs =>
      rcases ih (by simp) (fun w hw => hs w (List.mem_cons_of_mem _ hw)) with
        ⟨w, hw, hlast⟩
      refine ⟨w, List.mem_cons_of_mem _ hw, ?_⟩
      show (u ++ sep :: interSep sep (v :: vs)).getLast? = _
      have hne : interSep sep (v :: vs) ≠ [] :=
        interSep_ne_nil sep v vs (hs v (List.mem_cons_of_mem _ (List.mem_cons_self ..)))
      rw [List.getLast?_append, getLast?_cons_ne sep _ hne, hlast]
      cases hx : w.getLast? with
      | none =>
        exact absurd (List.getLast?_eq_none_iff.mp hx)
          (hs w (List.mem_cons_of_mem _ hw))
      | some x => rfl

/-! ## Association-list lookup lemmas -/

theorem lookup_cons {α β : Type} [BEq α] (a k : α) (v : β) (l : List (α × β)) :
    List.lookup a ((k, v) :: l) = if a == k then some v else List.lookup a l := by
  cases h : a == k <;> simp [List.lookup, h]

theorem lookup_append {α β : Type} [BEq α] (a : α) (l m : List (α × β)) :
    List.lookup a (l ++ m) =
      match List.lookup a l with
      | some v => some v
      | none => List.lookup a m := by
  induction l with
  | nil => rfl
  | cons kv rest ih =>
    rw [List.cons_append, lookup_cons, lookup_cons]
    by_cases h : a == kv.1 <;> simp [h, ih]

theorem lookup_eq_none {α β : Type} [BEq α] [LawfulBEq α] (a : α)
    (l : List (α × β)) (h : ∀ e ∈ l, e.1 ≠ a) : List.lookup a l = none := by
  induction l with
  | nil => rfl
  | cons kv rest ih =>
    rw [lookup_cons]
    have : (a == kv.1) = false := by
      simp only [beq_eq_false_iff_ne, ne_eq]
      exact fun hc => h kv (List.mem_cons_self ..) hc.symm
    rw [this]
    simp only [Bool.false_eq_true, if_false]
    exact ih (fun e he => h e (List.mem_cons_of_mem _ he))

theorem lookup_of_unique {α β : Type} [BEq α] [LawfulBEq α] (a : α) (c : β)
    (l : List (α × β)) (hex : ∃ e ∈ l, e.1 = a)
    (huniq : ∀ e ∈ l, e.1 = a → e.2 = c) : List.lookup a l = some c := by
  induction l with
  | nil => simp at hex
  | cons kv rest ih =>
    rw [lookup_cons]
    by_cases h : a = kv.1
    · have : kv.2 = c := huniq kv (List.mem_cons_self ..) h.symm
      simp [h, this]
    · have hb : (a == kv.1) = false := by simp [h]
      rw [hb]
      simp only [Bool.false_eq_true, if_false]
      rcases hex with ⟨e, he, hea⟩
      rcases List.mem_cons.mp he with rfl | he'
      · exact absurd hea.symm h
      · exact ih ⟨e, he', hea⟩ (fun e' he'' h' => huniq e' (List.mem_cons_of_mem _ he'') h')

theorem mem_of_lookup {α β : Type} [BEq α] [LawfulBEq α] (a : α) (v : β)
    (l : List (α × β)) (h : List.lookup a l = some v) : (a, v) ∈ l := by
  induction l with
  | nil => simp [List.lookup] at h
  | cons kv rest ih =>
    rw [lookup_cons] at h
    by_cases hb : a == kv.1
    · rw [if_pos hb] at h
      have : a = kv.1 := eq_of_beq hb
      cases h
      exact this ▸ List.mem_cons_self ..
    · rw [if_neg (by simp_all)] at h
      exact List.mem_cons_of_mem _ (ih h)

/-! ## Table and Characters insertion lemmas -/

theorem Table.lookup_insert_self (t : Table) (k : Char) (v : Str) :
    List.lookup k (t.insert k v) = some v := by
  induction t with
  | nil => simp [Table.insert, List.lookup]
  | cons kv rest ih =>
    rw [Table.insert]
    by_cases h1 : k < kv.1
    · rw [if_pos h1, lookup_cons]
      simp
    · rw [if_neg h1]
      by_cases h2 : k = kv.1
      · rw [if_pos h2, lookup_cons]
        simp
      · rw [if_neg h2, lookup_cons, if_neg (by simp [h2])]
        exact ih

theorem Table.insert_self_mem (t : Table) (k : Char) (v : Str) :
    (k, v) ∈ t.insert k v := by
  induction t with
  | nil => simp [Table.insert]
  | cons kv rest ih =>
    rw [Table.insert]
    by_cases h1 : k < kv.1
    · rw [if_pos h1]; exact List.mem_cons_self ..
    · rw [if_neg h1]
      by_cases h2 : k = kv.1
      · rw [if_pos h2]; exact List.mem_cons_self ..
      · rw [if_neg h2]; exact List.mem_cons_of_mem _ ih

theorem mem_table_insert (t : Table) (k : Char) (v : Str) (e : Char × Str)
    (h : e ∈ t.insert k v) : e = (k, v) ∨ e ∈ t := by
  induction t with
  | nil => simpa [Table.insert] using h
  | cons kv rest ih =>
    rw [Table.insert] at h
    by_cases h1 : k < kv.1
    · rw [if_pos h1] at h
      rcases List.mem_cons.mp h with rfl | h'
      · exact Or.inl rfl
      · exact Or.inr h'
    · rw [if_neg h1] at h
      by_cases h2 : k = kv.1
      · rw [if_pos h2] at h
        rcases List.mem_cons.mp h with rfl | h'
        · exact Or.inl rfl
        · exact Or.inr (List.mem_cons_of_mem _ h')
      · rw [if_neg h2] at h
        rcases List.mem_cons.mp h with rfl | h'
        · exact Or.inr (List.mem_cons_self ..)
        · rcases ih h' with h'' | h''
          · exact Or.inl h''
          · exact Or.inr (List.mem_cons_of_mem _ h'')

/-! ## Structure of the merged table set -/

/-- The concrete tables that follow Latin in tag order. -/
def tailTables : Characters :=
  [(.Numbers, numbers_chars), (.Punctuation, punctuation_chars),
   (.LatinExtended, latin_extended_chars), (.Cyrillic, cyrillic_chars),
   (.Greek, greek_chars), (.Hebrew, hebrew_chars), (.Arabic, arabic_chars),
   (.Persian, persian_chars), (.Japanese, japanese_chars),
   (.Korean, korean_chars), (.Thai, thai_chars)]

theorem base_characters_eq :
    base_characters = (.Latin, latin_chars) :: tailTables := rfl

/-- With a priority tag that has a base table, the merged set is exactly: the
priority copy under `Undefined`, then Latin extended with the synthetic
separator entry, then the remaining scripts in tag order. -/
theorem get_characters_eq (o : Options) (p : Table)
    (hpt : base_characters.get? o.priority = some p) :
    get_characters o =
      (.Undefined, p) ::
      (.Latin, latin_chars.insert o.separator [o.space]) :: tailTables := by
  simp only [get_characters]
  rw [hpt]
  rfl

/-! ## The reverse index as a first-match lookup over the entry stream -/

/-- The stream of `(pattern, character)` pairs fed to the reverse-index
construction: tables in tag order, each table's entries in key order. -/
def entryStream (cs : Characters) : List (Str × Char) :=
  (cs.map (fun st => st.2.map (fun kv => (kv.2, kv.1)))).flatten

theorem lookup_swapInsert (q v : Str) (k : Char) (m : List (Str × Char)) :
    List.lookup q (swapInsert m v k) =
      match List.lookup q m with
      | some c => some c
      | none => if q == v then some k else none := by
  unfold swapInsert
  cases hv : List.lookup v m with
  | some c =>
    cases hq : List.lookup q m with
    | some c' => rfl
    | none =>
      by_cases hqv : q = v
      · subst hqv
        rw [hq] at hv
        exact absurd hv (by simp)
      · simp [hqv]
  | none =>
    rw [lookup_append, lookup_cons]
    cases hq : List.lookup q m with
    | some c' => rfl
    | none =>
      by_cases hqv : q = v <;> simp [hqv, List.lookup]

theorem lookup_foldl_table (q : Str) (t : Table) (acc : List (Str × Char)) :
    List.lookup q (t.foldl (fun sw kv => swapInsert sw kv.2 kv.1) acc) =
      match List.lookup q acc with
      | some c => some c
      | none => List.lookup q (t.map (fun kv => (kv.2, kv.1))) := by
  induction t generalizing acc with
  | nil =>
    cases hq : List.lookup q acc <;> exact hq
  | cons kv rest ih =>
    rw [List.foldl_cons, ih, lookup_swapInsert, List.map_cons, lookup_cons]
    cases hq : List.lookup q acc with
    | some c => rfl
    | none =>
      by_cases hqv : q = kv.2 <;> simp [hqv]

theorem lookup_foldl_chars (q : Str) (cs : Characters) (acc : List (Str × Char)) :
    List.lookup q
        (cs.foldl (fun sw st => st.2.foldl (fun sw kv => swapInsert sw kv.2 kv.1) sw) acc) =
      match List.lookup q acc with
      | some c => some c
      | none => List.lookup q (entryStream cs) := by
  induction cs generalizing acc with
  | nil => cases hq : List.lookup q acc <;> exact hq
  | cons st rest ih =>
    rw [List.foldl_cons, ih, lookup_foldl_table]
    have hstream : entryStream (st :: rest) =
        st.2.map (fun kv => (kv.2, kv.1)) ++ entryStream rest := by
      simp [entryStream]
    rw [hstream, lookup_append]
    cases hq : List.lookup q acc with
    | some c => rfl
    | none =>
      simp only [hq]
      cases hs : List.lookup q (st.2.map (fun kv => (kv.2, kv.1))) <;> simp [hs]

/-- The reverse index answers exactly as the first matching entry of the
stream: tables in tag order, entries in key order, first writer wins. -/
theorem lookup_swap_characters (o : Options) (q : Str) :
    List.lookup q (swap_characters o) =
      List.lookup q (entryStream (get_mapped_characters o)) := by
  unfold swap_characters
  rw [lookup_foldl_chars]
  rfl

/-! ## Well-formedness of the base tables -/

instance (s : Str) : Decidable (all01 s) :=
  inferInstanceAs (Decidable (∀ c ∈ s, c = '0' ∨ c = '1'))

set_option maxRecDepth 10000 in
/-- Every base-table entry has a non-whitespace key and a nonempty `0`/`1`
pattern (checked by evaluation over the full data set). -/
theorem base_tables_wf : ∀ st ∈ base_characters, ∀ kv ∈ st.2,
    isWhitespace kv.1 = false ∧ kv.2 ≠ [] ∧ all01 kv.2 := by decide

theorem priority_mem (o : Options) (p : Table)
    (hpt : base_characters.get? o.priority = some p) :
    (o.priority, p) ∈ base_characters :=
  mem_of_lookup o.priority p base_characters hpt

theorem priority_wf (o : Options) (p : Table)
    (hpt : base_characters.get? o.priority = some p) :
    ∀ kv ∈ p, isWhitespace kv.1 = false ∧ kv.2 ≠ [] ∧ all01 kv.2 :=
  base_tables_wf (o.priority, p) (priority_mem o p hpt)

theorem lookup_ws_none (p : Table) (x : Char) (hx : isWhitespace x = true)
    (hwf : ∀ kv ∈ p, isWhitespace kv.1 = false) : List.lookup x p = none := by
  apply lookup_eq_none
  intro e he hc
  have hf := hwf e he
  rw [hc, hx] at hf
  cases hf

/-! ## The encode pipeline, characterized -/

/-- The resolved (unrendered) unit for one processed character, when the
priority overlay is consulted first: the priority pattern for its letters,
the word-space glyph for the separator. -/
def unitR (o : Options) (p : Table) (x : Char) : Str :=
  match List.lookup x p with
  | some v => v
  | none => [o.space]

theorem lookupChar_merged_letter (o : Options) (p : Table) (x : Char) (v : Str)
    (hpt : base_characters.get? o.priority = some p)
    (hx : List.lookup x p = some v) :
    lookupChar (get_characters o) x = some v := by
  rw [get_characters_eq o p hpt]
  simp [lookupChar, hx]

theorem lookupChar_merged_sep (o : Options) (p : Table)
    (hpt : base_characters.get? o.priority = some p)
    (hsep : List.lookup o.separator p = none) :
    lookupChar (get_characters o) o.separator = some [o.space] := by
  rw [get_characters_eq o p hpt]
  simp [lookupChar, hsep, Table.lookup_insert_self]

theorem encodeRaw_eq_joinSep (mc : MorseCode) (s : Str) :
    encodeRaw mc s = joinSep mc.options.separator
      (s.map (fun c =>
        match lookupChar mc.characters c with
        | some encoded => encoded
        | none => [mc.options.invalid_char_callback c])) := by
  induction s with
  | nil => rfl
  | cons c rest ih =>
    rw [encodeRaw, ih]
    simp only [List.map_cons, joinSep, List.flatten_cons]
    rw [List.append_assoc]
    rfl

theorem map_joinSep (f : Char → Char) (sep : Char) (us : List Str) :
    (joinSep sep us).map f = joinSep (f sep) (us.map (fun u => u.map f)) := by
  induction us with
  | nil => rfl
  | cons u us ih =>
    simp only [joinSep, List.map_cons, List.flatten_cons, List.map_append] at *
    rw [ih]
    rfl

/-! ## Membership facts about the merged set and the entry stream -/

theorem mem_chars_insert (t : Characters) (k : MorseCharacterSet) (v : Table)
    (e : MorseCharacterSet × Table) (h : e ∈ Characters.insert t k v) :
    e = (k, v) ∨ e ∈ t := by
  induction t with
  | nil => simpa [Characters.insert] using h
  | cons kv rest ih =>
    rw [Characters.insert] at h
    by_cases h1 : k.idx < kv.1.idx
    · rw [if_pos h1] at h
      rcases List.mem_cons.mp h with rfl | h'
      · exact Or.inl rfl
      · exact Or.inr h'
    · rw [if_neg h1] at h
      by_cases h2 : k = kv.1
      · rw [if_pos h2] at h
        rcases List.mem_cons.mp h with rfl | h'
        · exact Or.inl rfl
        · exact Or.inr (List.mem_cons_of_mem _ h')
      · rw [if_neg h2] at h
        rcases List.mem_cons.mp h with rfl | h'
        · exact Or.inr (List.mem_cons_self ..)
        · rcases ih h' with h'' | h''
          · exact Or.inl h''
          · exact Or.inr (List.mem_cons_of_mem _ h'')

/-- Every table of the merged set is either a base table, the priority copy
(itself a base table), or the Latin table with the synthetic entry. -/
theorem get_characters_values (o : Options) (st : MorseCharacterSet × Table)
    (h : st ∈ get_characters o) :
    ∀ kv ∈ st.2, kv = (o.separator, [o.space]) ∨
      (isWhitespace kv.1 = false ∧ kv.2 ≠ [] ∧ all01 kv.2) := by
  have hbase : ∀ st' ∈ base_characters, ∀ kv ∈ st'.2,
      kv = (o.separator, [o.space]) ∨
        (isWhitespace kv.1 = false ∧ kv.2 ≠ [] ∧ all01 kv.2) := by
    intro st' hst' kv hkv
    exact Or.inr (base_tables_wf st' hst' kv hkv)
  have hlatin : (MorseCharacterSet.Latin, latin_chars) ∈ base_characters := by
    rw [base_characters_eq]; exact List.mem_cons_self ..
  simp only [get_characters] at h
  cases hp : base_characters.get? o.priority with
  | some p =>
    rw [hp] at h
    cases hl : base_characters.get? MorseCharacterSet.Latin with
    | some set_1 =>
      rw [hl] at h
      rcases mem_chars_insert _ _ _ _ h with rfl | h'
      · intro kv hkv
        rcases mem_table_insert _ _ _ _ hkv with rfl | hkv'
        · exact Or.inl rfl
        · have hs1 : (MorseCharacterSet.Latin, set_1) ∈ base_characters :=
            mem_of_lookup _ _ _ hl
          exact hbase (MorseCharacterSet.Latin, set_1) hs1 kv hkv'
      · rcases mem_chars_insert _ _ _ _ h' with rfl | h''
        · exact fun kv hkv =>
            hbase (o.priority, p) (mem_of_lookup _ _ _ hp) kv hkv
        · exact hbase st h''
    | none =>
      have : base_characters.get? MorseCharacterSet.Latin = some latin_chars := rfl
      rw [this] at hl
      cases hl
  | none =>
    rw [hp] at h
    cases hl : base_characters.get? MorseCharacterSet.Latin with
    | some set_1 =>
      rw [hl] at h
      rcases mem_chars_insert _ _ _ _ h with rfl | h'
      · intro kv hkv
        rcases mem_table_insert _ _ _ _ hkv with rfl | hkv'
        · exact Or.inl rfl
        · exact hbase (MorseCharacterSet.Latin, set_1) (mem_of_lookup _ _ _ hl) kv hkv'
      · exact hbase st h'
    | none =>
      have : base_characters.get? MorseCharacterSet.Latin = some latin_chars := rfl
      rw [this] at hl
      cases hl

/-- Every entry of the reverse-index stream is a rendered entry of some
merged table. -/
theorem mem_entryStream (o : Options) (e : Str × Char)
    (h : e ∈ entryStream (get_mapped_characters o)) :
    ∃ st ∈ get_characters o, ∃ kv ∈ st.2, e = (render01 o kv.2, kv.1) := by
  unfold entryStream get_mapped_characters at h
  rcases List.mem_flatten.mp h with ⟨l, hl, hel⟩
  rcases List.mem_map.mp hl with ⟨st', hst', rfl⟩
  rcases List.mem_map.mp hst' with ⟨st, hst, rfl⟩
  rcases List.mem_map.mp hel with ⟨kv', hkv', rfl⟩
  rcases List.mem_map.mp hkv' with ⟨kv, hkv, rfl⟩
  exact ⟨st, hst, kv, hkv, rfl⟩

theorem flatten_map_singleton (s : Str) :
    (s.map (fun x => ([x] : Str))).flatten = s := by
  induction s with
  | nil => rfl
  | cons c rest ih => simp [ih]

/-- A character that the round-trip claim allows: the space, or a character
whose uppercase form is a single letter of the priority table. -/
def goodChar (p : Table) (c : Char) : Bool :=
  c == ' ' || (!isWhitespace c &&
    match upperChar c with
    | [u] => (List.lookup u p).isSome
    | _ => false)

theorem of_goodChar (p : Table) (c : Char) (h : goodChar p c = true) :
    c = ' ' ∨ (isWhitespace c = false ∧
      ∃ u v, upperChar c = [u] ∧ List.lookup u p = some v) := by
  unfold goodChar at h
  rcases Bool.or_eq_true_iff.mp h with h' | h'
  · exact Or.inl (eq_of_beq h')
  · rcases Bool.and_eq_true_iff.mp h' with ⟨hw, hm⟩
    refine Or.inr ⟨by simpa using hw, ?_⟩
    cases hu : upperChar c with
    | nil => rw [hu] at hm; cases hm
    | cons u rest =>
      cases rest with
      | nil =>
        rw [hu] at hm
        rcases Option.isSome_iff_exists.mp hm with ⟨v, hv⟩
        exact ⟨u, v, rfl, hv⟩
      | cons u' rest' => rw [hu] at hm; cases hm

/-! ## The two reverse-index lookups used by the round trip -/

/-- The rendered `(pattern, character)` stream of one table. -/
def streamOf (o : Options) (t : Table) : List (Str × Char) :=
  t.map (fun kv => (render01 o kv.2, kv.1))

theorem entryStream_decomp (o : Options) (p : Table)
    (hpt : base_characters.get? o.priority = some p) :
    entryStream (get_mapped_characters o) =
      streamOf o p ++
      (streamOf o (latin_chars.insert o.separator [o.space]) ++
        entryStream ((tailTables.map
          (fun st => (st.1, st.2.map (fun kv => (kv.1, render01 o kv.2))))))) := by
  unfold get_mapped_characters
  rw [get_characters_eq o p hpt]
  simp only [List.map_cons, entryStream, List.flatten_cons, streamOf, List.map_map]
  rfl

/-- In the priority block of the stream, the rendered pattern of a priority
letter resolves to that letter (collision-freedom plus injective
rendering). -/
theorem lookup_pEntries (o : Options) (p : Table) (x : Char) (v : Str)
    (hdd : o.dot ≠ o.dash) (hd1 : o.dot ≠ '1')
    (hwf : ∀ kv ∈ p, all01 kv.2)
    (hnc : (p.map (fun kv => kv.2)).Nodup)
    (hx : (x, v) ∈ p) :
    List.lookup (render01 o v) (streamOf o p) = some x := by
  induction p with
  | nil => simp at hx
  | cons kv rest ih =>
    rw [streamOf, List.map_cons, lookup_cons]
    by_cases hb : render01 o v = render01 o kv.2
    · have hv : v = kv.2 :=
        render01_inj01 o hdd hd1 v kv.2
          (hwf (x, v) hx) (hwf kv (List.mem_cons_self ..)) hb
      rcases List.mem_cons.mp hx with heq | hmem
      · rw [if_pos (by simp [hb])]
        rw [show kv.1 = x from congrArg Prod.fst heq.symm]
      · exfalso
        rw [List.map_cons, List.nodup_cons] at hnc
        exact hnc.1 (hv ▸ List.mem_map.mpr ⟨(x, v), hmem, rfl⟩)
    · rw [if_neg (by simp [hb])]
      rcases List.mem_cons.mp hx with heq | hmem
      · exact absurd (congrArg (fun e => render01 o e.2) heq) hb
      · exact ih (fun kv' hkv' => hwf kv' (List.mem_cons_of_mem _ hkv'))
          ((List.nodup_cons.mp (List.map_cons _ kv rest ▸ hnc)).2) hmem

theorem entryStream_mem_of (o : Options) (st : MorseCharacterSet × Table)
    (hst : st ∈ get_characters o) (kv : Char × Str) (hkv : kv ∈ st.2) :
    (render01 o kv.2, kv.1) ∈ entryStream (get_mapped_characters o) := by
  unfold entryStream get_mapped_characters
  apply List.mem_flatten.mpr
  refine ⟨(st.2.map (fun kv => (kv.1, render01 o kv.2))).map (fun kv => (kv.2, kv.1)),
    List.mem_map.mpr ⟨(st.1, st.2.map (fun kv => (kv.1, render01 o kv.2))),
      List.mem_map.mpr ⟨st, hst, rfl⟩, rfl⟩, ?_⟩
  rw [List.map_map]
  exact List.mem_map.mpr ⟨kv, hkv, rfl⟩

theorem chars_insert_self_mem (t : Characters) (k : MorseCharacterSet) (v : Table) :
    (k, v) ∈ Characters.insert t k v := by
  induction t with
  | nil => simp [Characters.insert]
  | cons kv rest ih =>
    rw [Characters.insert]
    by_cases h1 : k.idx < kv.1.idx
    · rw [if_pos h1]; exact List.mem_cons_self ..
    · rw [if_neg h1]
      by_cases h2 : k = kv.1
      · rw [if_pos h2]; exact List.mem_cons_self ..
      · rw [if_neg h2]; exact List.mem_cons_of_mem _ ih

/-- The Latin table carrying the synthetic separator entry belongs to the
merged set, whatever the priority is. -/
theorem latin_syn_mem (o : Options) :
    (MorseCharacterSet.Latin, latin_chars.insert o.separator [o.space])
      ∈ get_characters o := by
  simp only [get_characters]
  cases hp : base_characters.get? o.priority <;>
    rw [show base_characters.get? MorseCharacterSet.Latin = some latin_chars from rfl] <;>
    exact chars_insert_self_mem ..

/-- The single-glyph word-space unit resolves to the separator character in
the reverse index: the synthetic Latin entry is the only claimant of that
pattern. -/
theorem lookup_space_glyph (o : Options)
    (hspd : o.space ≠ o.dot) (hspd2 : o.space ≠ o.dash)
    (hsp0 : o.space ≠ '0') (hsp1 : o.space ≠ '1') :
    List.lookup [o.space] (entryStream (get_mapped_characters o)) =
      some o.separator := by
  have hmemL : (MorseCharacterSet.Latin, latin_chars.insert o.separator [o.space])
      ∈ get_characters o := latin_syn_mem o
  have hkv : (o.separator, [o.space]) ∈ latin_chars.insert o.separator [o.space] :=
    Table.insert_self_mem ..
  apply lookup_of_unique
  · refine ⟨(render01 o [o.space], o.separator),
      entryStream_mem_of o _ hmemL (o.separator, [o.space]) hkv, ?_⟩
    exact congrArg Prod.fst (congrArg (fun s => (s, o.separator))
      (render01_not01_fixed o o.space hsp0 hsp1))
  · intro e he hfst
    rcases mem_entryStream o e he with ⟨st, hst, kv, hkv', rfl⟩
    rcases get_characters_values o st hst kv hkv' with heq | ⟨_, hnn, h01⟩
    · rw [heq]
    · exfalso
      have hfst' : render01 o kv.2 = [o.space] := hfst
      have hmem : o.space ∈ render01 o kv.2 := by
        rw [hfst']
        exact List.mem_cons_self ..
      rcases render01_chars o kv.2 h01 o.space hmem with h | h
      · exact hspd h
      · exact hspd2 h

/-- A priority letter's rendered pattern resolves back to that letter in the
reverse index: the priority block heads the stream and wins every
collision. -/
theorem lookup_letter (o : Options) (p : Table)
    (hpt : base_characters.get? o.priority = some p)
    (hdd : o.dot ≠ o.dash) (hd1 : o.dot ≠ '1')
    (hnc : (p.map (fun kv => kv.2)).Nodup) (x : Char) (v : Str)
    (hx : List.lookup x p = some v) :
    List.lookup (render01 o v) (entryStream (get_mapped_characters o)) =
      some x := by
  rw [entryStream_decomp o p hpt, lookup_append,
    lookup_pEntries o p x v hdd hd1
      (fun kv hkv => (priority_wf o p hpt kv hkv).2.2) hnc
      (mem_of_lookup _ _ _ hx)]

theorem lookup_nil_stream (o : Options) :
    List.lookup ([] : Str) (entryStream (get_mapped_characters o)) = none := by
  apply lookup_eq_none
  intro e he h1
  rcases mem_entryStream o e he with ⟨st, hst, kv, hkv, rfl⟩
  have hnn : kv.2 ≠ [] := by
    rcases get_characters_values o st hst kv hkv with heq | ⟨_, hnn, _⟩
    · rw [heq]; simp
    · exact hnn
  exact render01_ne_nil o kv.2 hnn h1

theorem encode_nil (o : Options) : (MorseCode.new o).encode [] = [] := rfl

theorem decode_nil (o : Options) : (MorseCode.new o).decode [] = [] := by
  have h := lookup_nil_stream o
  rw [← lookup_swap_characters] at h
  simp only [MorseCode.decode, MorseCode.new]
  rw [show replaceIf isWhitespace [o.separator] [] = [] from rfl,
    show trimStr [] = [] from rfl]
  simp only [splitSep, List.map_cons, List.map_nil, h]
  rfl

theorem render_joinSep (o : Options) (sep : Char) (h0 : sep ≠ '0') (h1 : sep ≠ '1')
    (us : List Str) :
    render01 o (joinSep sep us) = joinSep sep (us.map (render01 o)) := by
  rw [render01_eq_map, map_joinSep, rho_of_not01 o sep h0 h1]
  congr 1
  apply List.map_congr_left
  intro u _
  rw [render01_eq_map]

theorem pop_joinSep (sep : Char) (us : List Str) (hne : us ≠ []) :
    (if joinSep sep us ≠ [] ∧ (joinSep sep us).getLast? = some sep
     then (joinSep sep us).dropLast else joinSep sep us)
    = interSep sep us := by
  rw [joinSep_eq_interSep _ _ hne,
    if_pos ⟨by simp, List.getLast?_concat _⟩]
  exact List.dropLast_concat ..

/-- Under the round-trip hypotheses, `encode` produces exactly the rendered
units joined by single separators. -/
theorem encode_eq_interSep (o : Options) (p : Table)
    (hpt : base_characters.get? o.priority = some p)
    (hsep : o.separator = ' ')
    (s text : Str)
    (hproc : processedText o text = s)
    (hs : ∀ x ∈ s, x = ' ' ∨ (List.lookup x p).isSome)
    (hne : s ≠ []) :
    (MorseCode.new o).encode text =
      interSep ' ' (s.map (fun x => render01 o (unitR o p x))) := by
  have hpws : ∀ kv ∈ p, isWhitespace kv.1 = false :=
    fun kv h => (priority_wf o p hpt kv h).1
  have hsepnone : List.lookup o.separator p = none := by
    rw [hsep]
    exact lookup_ws_none p ' ' (by decide) hpws
  have hunit : ∀ x ∈ s,
      (match lookupChar (MorseCode.new o).characters x with
       | some encoded => encoded
       | none => [(MorseCode.new o).options.invalid_char_callback x]) =
        unitR o p x := by
    intro x hx
    rcases hs x hx with rfl | hsome
    · have hlk : lookupChar (get_characters o) o.separator = some [o.space] :=
        lookupChar_merged_sep o p hpt hsepnone
      rw [hsep] at hlk
      have hnone : List.lookup ' ' p = none := hsep ▸ hsepnone
      show (match lookupChar (get_characters o) ' ' with
            | some encoded => encoded
            | none => [o.invalid_char_callback ' ']) = unitR o p ' '
      rw [hlk]
      unfold unitR
      rw [hnone]
    · rcases Option.isSome_iff_exists.mp hsome with ⟨v, hv⟩
      show (match lookupChar (get_characters o) x with
            | some encoded => encoded
            | none => [o.invalid_char_callback x]) = unitR o p x
      rw [lookupChar_merged_letter o p x v hpt hv]
      unfold unitR
      rw [hv]
  have hproc' : processedText (MorseCode.new o).options text = s := hproc
  have step1 : encodeRaw (MorseCode.new o) (processedText o text) =
      joinSep o.separator (s.map (unitR o p)) := by
    rw [show processedText o text = s from hproc, encodeRaw_eq_joinSep]
    exact congrArg (joinSep o.separator) (List.map_congr_left hunit)
  have hdef : (MorseCode.new o).encode text =
      (if render01 o (encodeRaw (MorseCode.new o) (processedText o text)) ≠ [] ∧
          (render01 o (encodeRaw (MorseCode.new o) (processedText o text))).getLast? =
            some o.separator
       then (render01 o (encodeRaw (MorseCode.new o) (processedText o text))).dropLast
       else render01 o (encodeRaw (MorseCode.new o) (processedText o text))) := rfl
  rw [hdef, step1,
    render_joinSep o o.separator (by rw [hsep]; decide) (by rw [hsep]; decide),
    pop_joinSep o.separator _
      (fun h => hne (by simpa using List.map_eq_nil_iff.mp (List.map_eq_nil_iff.mp h))),
    hsep, List.map_map]
  rfl

theorem mem_of_head? (l : Str) (c : Char) (h : l.head? = some c) : c ∈ l := by
  cases l with
  | nil => exact absurd h (by simp)
  | cons a t =>
    rw [List.head?_cons] at h
    cases h
    exact List.mem_cons_self ..

theorem mem_of_getLast? (l : Str) (c : Char) (h : l.getLast? = some c) : c ∈ l := by
  rcases List.mem_getLast?_eq_getLast (Option.mem_def.mpr h) with ⟨hne, rfl⟩
  exact List.getLast_mem hne

/-- Under the round-trip hypotheses, `decode` recovers the processed text
from the rendered units. -/
theorem decode_units (o : Options) (p : Table) (s : Str)
    (hpt : base_characters.get? o.priority = some p)
    (hsep : o.separator = ' ')
    (hdd : o.dot ≠ o.dash) (hd1 : o.dot ≠ '1')
    (hdotw : isWhitespace o.dot = false) (hdashw : isWhitespace o.dash = false)
    (hspd : o.space ≠ o.dot) (hspd2 : o.space ≠ o.dash)
    (hsp0 : o.space ≠ '0') (hsp1 : o.space ≠ '1')
    (hspw : isWhitespace o.space = false)
    (hnc : (p.map (fun kv => kv.2)).Nodup)
    (hs : ∀ x ∈ s, x = ' ' ∨ (List.lookup x p).isSome)
    (hne : s ≠ []) :
    (MorseCode.new o).decode
      (interSep ' ' (s.map (fun x => render01 o (unitR o p x)))) = s := by
  have hwf := priority_wf o p hpt
  have hsepnone : List.lookup ' ' p = none :=
    lookup_ws_none p ' ' (by decide) (fun kv h => (hwf kv h).1)
  have hUnitSpace : unitR o p ' ' = [o.space] := by
    unfold unitR
    rw [hsepnone]
  have hunits : ∀ x ∈ s, render01 o (unitR o p x) ≠ [] ∧
      ∀ c ∈ render01 o (unitR o p x), isWhitespace c = false := by
    intro x hx
    rcases hs x hx with rfl | hsome
    · rw [hUnitSpace, render01_not01_fixed o o.space hsp0 hsp1]
      refine ⟨by simp, ?_⟩
      intro c hc
      rcases List.mem_singleton.mp hc with rfl
      exact hspw
    · rcases Option.isSome_iff_exists.mp hsome with ⟨v, hv⟩
      have hvwf := hwf (x, v) (mem_of_lookup _ _ _ hv)
      rw [show unitR o p x = v by unfold unitR; rw [hv]]
      refine ⟨render01_ne_nil o v hvwf.2.1, ?_⟩
      intro c hc
      rcases render01_chars o v hvwf.2.2 c hc with h | h
      · rw [h]; exact hdotw
      · rw [h]; exact hdashw
  have husne : s.map (fun x => render01 o (unitR o p x)) ≠ [] :=
    fun h => hne (List.map_eq_nil_iff.mp h)
  have hchars : ∀ c ∈ interSep ' ' (s.map (fun x => render01 o (unitR o p x))),
      isWhitespace c = true → c = ' ' := by
    intro c hc hws
    rcases mem_interSep ' ' _ c hc with rfl | ⟨u, hu, hcu⟩
    · rfl
    · rcases List.mem_map.mp hu with ⟨x, hx, rfl⟩
      rw [(hunits x hx).2 c hcu] at hws
      cases hws
  have hrepl : replaceIf isWhitespace [o.separator]
      (interSep ' ' (s.map (fun x => render01 o (unitR o p x)))) =
      interSep ' ' (s.map (fun x => render01 o (unitR o p x))) := by
    rw [hsep]
    exact replaceIf_self _ _ _ hchars
  have htrim : trimStr (interSep ' ' (s.map (fun x => render01 o (unitR o p x)))) =
      interSep ' ' (s.map (fun x => render01 o (unitR o p x))) := by
    apply trimStr_of_ends
    · intro c hc
      cases s with
      | nil => exact absurd rfl hne
      | cons x0 s' =>
        rw [List.map_cons, head?_interSep ' ' _ _
          (hunits x0 (List.mem_cons_self ..)).1] at hc
        exact (hunits x0 (List.mem_cons_self ..)).2 c (mem_of_head? _ c hc)
    · intro c hc
      rcases getLast?_interSep ' ' _ husne
        (by
          intro u hu
          rcases List.mem_map.mp hu with ⟨x, hx, rfl⟩
          exact (hunits x hx).1) with ⟨u, hu, hlast⟩
      rcases List.mem_map.mp hu with ⟨x, hx, rfl⟩
      rw [hlast] at hc
      exact (hunits x hx).2 c (mem_of_getLast? _ c hc)
  have hsplit : splitSep ' ' (interSep ' ' (s.map (fun x => render01 o (unitR o p x)))) =
      s.map (fun x => render01 o (unitR o p x)) := by
    apply splitSep_interSep ' ' _ husne
    intro u hu hmem
    rcases List.mem_map.mp hu with ⟨x, hx, rfl⟩
    exact absurd ((hunits x hx).2 ' ' hmem) (by decide)
  have hlookup : ∀ x ∈ s,
      (match List.lookup (render01 o (unitR o p x)) (swap_characters o) with
       | some c => ([c] : Str)
       | none => render01 o (unitR o p x)) = [x] := by
    intro x hx
    rcases hs x hx with rfl | hsome
    · rw [hUnitSpace, render01_not01_fixed o o.space hsp0 hsp1,
        lookup_swap_characters,
        lookup_space_glyph o hspd hspd2 hsp0 hsp1, hsep]
    · rcases Option.isSome_iff_exists.mp hsome with ⟨v, hv⟩
      rw [show unitR o p x = v by unfold unitR; rw [hv],
        lookup_swap_characters, lookup_letter o p hpt hdd hd1 hnc x v hv]
  have hdef : (MorseCode.new o).decode
      (interSep ' ' (s.map (fun x => render01 o (unitR o p x)))) =
      ((splitSep o.separator (trimStr (replaceIf isWhitespace [o.separator]
          (interSep ' ' (s.map (fun x => render01 o (unitR o p x))))))).map
        (fun u =>
          match List.lookup u (swap_characters o) with
          | some c => ([c] : Str)
          | none => u)).flatten := rfl
  rw [hdef, hrepl, htrim, hsep, hsplit, List.map_map]
  rw [List.map_congr_left (by
    intro x hx
    exact hlookup x hx)]
  exact flatten_map_singleton s

theorem processedText_upper (o : Options) (p : Table) (text : Str)
    (hsep : o.separator = ' ')
    (htext : ∀ c ∈ text, goodChar p c = true)
    (hh : ∀ c, text.head? = some c → c ≠ ' ')
    (hl : ∀ c, text.getLast? = some c → c ≠ ' ') :
    processedText o text = toUpperStr text := by
  have hclass : ∀ c ∈ text, c = ' ' ∨ isWhitespace c = false := by
    intro c hc
    rcases of_goodChar p c (htext c hc) with h | ⟨hw, _⟩
    · exact Or.inl h
    · exact Or.inr hw
  unfold processedText
  rw [hsep]
  rw [replaceIf_self isWhitespace ' ' text (by
    intro c hc hws
    rcases hclass c hc with rfl | hnw
    · rfl
    · rw [hnw] at hws
      cases hws)]
  rw [trimStr_of_ends text
    (by
      intro c hc
      rcases hclass c (mem_of_head? text c hc) with rfl | hnw
      · exact absurd rfl (hh ' ' hc)
      · exact hnw)
    (by
      intro c hc
      rcases hclass c (mem_of_getLast? text c hc) with rfl | hnw
      · exact absurd rfl (hl ' ' hc)
      · exact hnw)]

theorem toUpper_good (p : Table) (text : Str)
    (htext : ∀ c ∈ text, goodChar p c = true) :
    ∀ x ∈ toUpperStr text, x = ' ' ∨ (List.lookup x p).isSome := by
  intro x hx
  unfold toUpperStr at hx
  rcases List.mem_flatten.mp hx with ⟨l, hl, hxl⟩
  rcases List.mem_map.mp hl with ⟨c, hc, rfl⟩
  rcases of_goodChar p c (htext c hc) with rfl | ⟨_, u, v, hu, hv⟩
  · rw [show upperChar ' ' = [' '] from rfl] at hxl
    rcases List.mem_singleton.mp hxl with rfl
    exact Or.inl rfl
  · rw [hu] at hxl
    rcases List.mem_singleton.mp hxl with rfl
    exact Or.inr (by rw [hv]; rfl)

theorem toUpper_ne_nil (p : Table) (text : Str)
    (htext : ∀ c ∈ text, goodChar p c = true) (hne : text ≠ []) :
    toUpperStr text ≠ [] := by
  cases text with
  | nil => exact absurd rfl hne
  | cons c rest =>
    intro h
    unfold toUpperStr at h
    rw [List.map_cons, List.flatten_cons] at h
    rcases List.append_eq_nil.mp h with ⟨h1, _⟩
    rcases of_goodChar p c (htext c (List.mem_cons_self ..)) with rfl | ⟨_, u, v, hu, _⟩
    · exact List.cons_ne_nil _ _ (show ([' '] : Str) = [] from h1)
    · rw [hu] at h1
      exact List.cons_ne_nil _ _ h1

/-- C1 (amended): for Options satisfying the documented glyph preconditions,
with separator `' '`, a priority script with a base table and no internal
pattern collisions, and text made of that script's letters and interior
spaces (no leading or trailing space), decoding the encoding yields the
uppercased text. -/
theorem C1_round_trip (o : Options) (p : Table) (text : Str)
    (hpt : base_characters.get? o.priority = some p)
    (hnc : (p.map (fun kv => kv.2)).Nodup)
    (hsep : o.separator = ' ')
    (hdd : o.dot ≠ o.dash) (hd1 : o.dot ≠ '1')
    (hdotw : isWhitespace o.dot = false) (hdashw : isWhitespace o.dash = false)
    (hspd : o.space ≠ o.dot) (hspd2 : o.space ≠ o.dash)
    (hsp0 : o.space ≠ '0') (hsp1 : o.space ≠ '1')
    (hspw : isWhitespace o.space = false)
    (htext : ∀ c ∈ text, goodChar p c = true)
    (hh : ∀ c, text.head? = some c → c ≠ ' ')
    (hl : ∀ c, text.getLast? = some c → c ≠ ' ') :
    (MorseCode.new o).decode ((MorseCode.new o).encode text) = toUpperStr text := by
  by_cases hne : text = []
  · subst hne
    rw [encode_nil o, decode_nil o]
    rfl
  · have hproc := processedText_upper o p text hsep htext hh hl
    have hs := toUpper_good p text htext
    have hsne := toUpper_ne_nil p text htext hne
    rw [encode_eq_interSep o p hpt hsep (toUpperStr text) text hproc hs hsne]
    exact decode_units o p (toUpperStr text) hpt hsep hdd hd1 hdotw hdashw
      hspd hspd2 hsp0 hsp1 hspw hnc hs hsne

/-! ## The claims -/

/-- Options equal to the default except for an underscore separator. -/
def sepUnderscore : Options := { Options.default with separator := '_' }

/-- Options equal to the default except that the invalid-character callback
returns `'0'` for every character. -/
def callbackZero : Options := { Options.default with invalid_char_callback := fun _ => '0' }

/-- The merged tables in encode-scan order: priority copy, Latin with the
synthetic entry, then the remaining scripts in tag order. -/
def scanOrder (o : Options) (p : Table) : List Table :=
  [p, latin_chars.insert o.separator [o.space], numbers_chars, punctuation_chars,
   latin_extended_chars, cyrillic_chars, greek_chars, hebrew_chars, arabic_chars,
   persian_chars, japanese_chars, korean_chars, thai_chars]

/-- First-table-wins lookup over an explicit list of tables. -/
def firstHit : List Table → Char → Option Str
  | [], _ => none
  | t :: rest, c =>
    match List.lookup c t with
    | some v => some v
    | none => firstHit rest c

/-- The reverse-index entry stream in index-build order. -/
def streamIndex (o : Options) (p : Table) : List (Str × Char) :=
  ((scanOrder o p).map (streamOf o)).flatten

set_option maxRecDepth 10000 in
/-- C1 (counterexample): as stated the claim fails on the code.  With the
default Options, a leading space is trimmed away, so the round trip loses it;
with a non-space separator, an interior space decodes to the separator
character rather than the space. -/
theorem C1_counterexample :
    (MorseCode.new Options.default).decode
        ((MorseCode.new Options.default).encode (" e").data) ≠
      toUpperStr (" e").data ∧
    (MorseCode.new sepUnderscore).decode
        ((MorseCode.new sepUnderscore).encode ("a b").data) ≠
      toUpperStr ("a b").data := by
  constructor <;> decide

set_option maxRecDepth 10000 in
/-- C1 (witness): the amended round trip at the default Options, Latin
priority, and the text `"ab c"`. -/
theorem C1_witness :
    (MorseCode.new Options.default).decode
      ((MorseCode.new Options.default).encode ("ab c").data) =
      toUpperStr ("ab c").data :=
  C1_round_trip Options.default latin_chars ("ab c").data (by decide) (by decide)
    rfl (by decide) (by decide) (by decide) (by decide) (by decide) (by decide)
    (by decide) (by decide) (by decide) (by decide) (by decide) (by decide)

/-- C2: every character is resolved by scanning the merged tables in the
fixed tag order — priority overlay (Undefined) first, then Latin (with the
synthetic entry), Numbers, Punctuation, LatinExtended, Cyrillic, Greek,
Hebrew, Arabic, Persian, Japanese, Korean, Thai — taking the pattern of the
first table that contains it; hence a character the priority table contains
always resolves to the priority pattern. -/
theorem C2_scan_order (o : Options) (p : Table) (c : Char)
    (hpt : base_characters.get? o.priority = some p) :
    lookupChar (MorseCode.new o).characters c = firstHit (scanOrder o p) c ∧
    ∀ v, List.lookup c p = some v →
      lookupChar (MorseCode.new o).characters c = some v := by
  constructor
  · show lookupChar (get_characters o) c = firstHit (scanOrder o p) c
    rw [get_characters_eq o p hpt]
    rfl
  · intro v hv
    exact lookupChar_merged_letter o p c v hpt hv

/-- C2 (witness): at the default Options, with the Cyrillic letter Ef, which
is found only after the earlier tables fail. -/
theorem C2_witness :
    lookupChar (MorseCode.new Options.default).characters 'Ф' =
      firstHit (scanOrder Options.default latin_chars) 'Ф' ∧
    ∀ v, List.lookup 'Ф' latin_chars = some v →
      lookupChar (MorseCode.new Options.default).characters 'Ф' = some v :=
  C2_scan_order Options.default latin_chars 'Ф' (by decide)

/-- C3: the reverse index is deterministic given the fixed script order —
looking a rendered pattern up in it answers exactly as the first matching
entry of the stream obtained by iterating the rendered tables in tag order
(priority overlay first, then Latin, Numbers, and so on), so the first writer
wins every pattern collision. -/
theorem C3_first_writer_wins (o : Options) (p : Table) (q : Str)
    (hpt : base_characters.get? o.priority = some p) :
    List.lookup q (swap_characters o) = List.lookup q (streamIndex o p) := by
  rw [lookup_swap_characters, entryStream_decomp o p hpt]
  rfl

/-- C3 (witness): at the default Options, the pattern of `A` (which Latin,
Cyrillic, Greek, Hebrew, Arabic, Persian, Japanese, Korean and Thai all
render identically) resolves per the stream order. -/
theorem C3_witness :
    List.lookup (".-").data (swap_characters Options.default) =
      List.lookup (".-").data (streamIndex Options.default latin_chars) :=
  C3_first_writer_wins Options.default latin_chars (".-").data (by decide)

/-- C4 (counterexample): preprocessing does not collapse whitespace runs (two
spaces become two separators), and with a non-whitespace separator the
leading separator glyphs are not trimmed. -/
theorem C4_counterexample :
    processedText Options.default (" a  b ").data ≠ ("A B").data ∧
    processedText Options.default (" a  b ").data = ("A  B").data ∧
    processedText sepUnderscore (" a").data = ("_A").data := by
  refine ⟨?_, ?_, ?_⟩ <;> decide

/-- C4 (amended): encode preprocessing replaces every whitespace character
one-for-one with the separator glyph (runs are not collapsed), trims leading
and trailing whitespace characters (which are separator glyphs only when the
separator is itself whitespace), and then uppercases; concretely, the default
separator keeps interior runs intact. -/
theorem C4_preprocessing :
    (∀ (o : Options) (t : Str),
      processedText o t =
        toUpperStr (trimStr (t.map (fun c => if isWhitespace c then o.separator else c)))) ∧
    processedText Options.default ("a  b").data = ("A  B").data := by
  constructor
  · intro o t
    unfold processedText
    rw [replaceIf_singleton]
  · decide

/-- C5: with the default Options, encoding `"the quick brown fox"` yields
exactly the expected Morse string. -/
theorem C5_encode_fox :
    (MorseCode.new Options.default).encode ("the quick brown fox").data =
      ("- .... . / --.- ..- .. -.-. -.- / -... .-. --- .-- -. / ..-. --- -..-").data := by
  decide

set_option maxRecDepth 10000 in
/-- C6: with the default Options, decoding the ten digit patterns yields
`"0123456789"`. -/
theorem C6_decode_digits :
    (MorseCode.new Options.default).decode
      ("----- .---- ..--- ...-- ....- ..... -.... --... ---.. ----.").data =
      ("0123456789").data := by
  decide

set_option maxRecDepth 10000 in
/-- C7 (counterexample): the substitute character produced by the
invalid-character callback is not always emitted literally — it passes
through the global `0`-to-dot substitution, so a callback returning `'0'`
emits the dot glyph instead. -/
theorem C7_counterexample :
    (MorseCode.new callbackZero).encode ("*").data ≠
      [callbackZero.invalid_char_callback '*'] ∧
    (MorseCode.new callbackZero).encode ("*").data = (".").data := by
  constructor <;> decide

/-- C7 (amended): encode resolves every character of the normalized input
against the merged tables; a character contained in no table contributes, in
place of a pattern, the substitute character produced by the caller-supplied
invalid-character transform, which — like the rest of the result — then
undergoes the global `0`-to-dot and `1`-to-dash substitution; in particular
the substitute is emitted literally whenever it is neither `'0'` nor
`'1'`. -/
theorem C7_invalid_char (o : Options)
    (hs0 : o.separator ≠ '0') (hs1 : o.separator ≠ '1') (text : Str) :
    (MorseCode.new o).encode text =
      (if processedText o text = [] then []
       else interSep o.separator ((processedText o text).map (fun x =>
         match lookupChar (get_characters o) x with
         | some encoded => render01 o encoded
         | none => [rho o (o.invalid_char_callback x)]))) ∧
    ∀ d : Char, d ≠ '0' → d ≠ '1' → rho o d = d := by
  constructor
  · have hdef : (MorseCode.new o).encode text =
        (if render01 o (encodeRaw (MorseCode.new o) (processedText o text)) ≠ [] ∧
            (render01 o (encodeRaw (MorseCode.new o) (processedText o text))).getLast? =
              some o.separator
         then (render01 o (encodeRaw (MorseCode.new o) (processedText o text))).dropLast
         else render01 o (encodeRaw (MorseCode.new o) (processedText o text))) := rfl
    rw [hdef, encodeRaw_eq_joinSep,
      show (MorseCode.new o).options = o from rfl,
      show (MorseCode.new o).characters = get_characters o from rfl,
      render_joinSep o o.separator hs0 hs1, List.map_map]
    have hcomp : (render01 o ∘ fun c =>
        match lookupChar (get_characters o) c with
        | some encoded => encoded
        | none => [o.invalid_char_callback c]) =
        fun x =>
          match lookupChar (get_characters o) x with
          | some encoded => render01 o encoded
          | none => [rho o (o.invalid_char_callback x)] := by
      funext x
      cases h : lookupChar (get_characters o) x with
      | some e => simp [h]
      | none => simp [h, render01_eq_map]
    rw [hcomp]
    by_cases hpe : processedText o text = []
    · rw [hpe, if_pos rfl]
      rfl
    · rw [if_neg hpe]
      exact pop_joinSep o.separator _
        (fun h => hpe (List.map_eq_nil_iff.mp h))
  · intro d h0 h1
    exact rho_of_not01 o d h0 h1

/-- C7 (witness): at the default Options and the text `"*"`, whose only
character no table contains, the emitted unit is the identity callback's
substitute (here `'*'` itself, which is neither `'0'` nor `'1'`). -/
theorem C7_witness :
    ((MorseCode.new Options.default).encode ("*").data =
      (if processedText Options.default ("*").data = [] then []
       else interSep Options.default.separator
        ((processedText Options.default ("*").data).map (fun x =>
          match lookupChar (get_characters Options.default) x with
          | some encoded => render01 Options.default encoded
          | none => [rho Options.default (Options.default.invalid_char_callback x)])))) ∧
    ∀ d : Char, d ≠ '0' → d ≠ '1' → rho Options.default d = d :=
  C7_invalid_char Options.default (by decide) (by decide) ("*").data

/-- C8: decode splits its input into units on the separator and maps each
unit through the reverse index; a unit the index does not contain is emitted
verbatim (pass-through), processing continues, and the result is always a
string (the function is total by construction). -/
theorem C8_passthrough (o : Options) (us : List Str) (hne : us ≠ [])
    (hu : ∀ u ∈ us, u ≠ [] ∧ ∀ c ∈ u, isWhitespace c = false ∧ c ≠ o.separator) :
    (MorseCode.new o).decode (interSep o.separator us) =
      (us.map (fun u =>
        match List.lookup u (swap_characters o) with
        | some ch => ([ch] : Str)
        | none => u)).flatten := by
  have hchars : ∀ c ∈ interSep o.separator us,
      isWhitespace c = true → c = o.separator := by
    intro c hc hw
    rcases mem_interSep _ _ c hc with rfl | ⟨u, hmem, hcu⟩
    · rfl
    · rw [((hu u hmem).2 c hcu).1] at hw
      cases hw
  have hrepl := replaceIf_self isWhitespace o.separator _ hchars
  have htrim : trimStr (interSep o.separator us) = interSep o.separator us := by
    apply trimStr_of_ends
    · intro c hc
      cases us with
      | nil => exact absurd rfl hne
      | cons u0 us' =>
        rw [head?_interSep _ _ _ (hu u0 (List.mem_cons_self ..)).1] at hc
        exact ((hu u0 (List.mem_cons_self ..)).2 c (mem_of_head? _ c hc)).1
    · intro c hc
      rcases getLast?_interSep o.separator us hne (fun u hm => (hu u hm).1) with
        ⟨u, hmem, hlast⟩
      rw [hlast] at hc
      exact ((hu u hmem).2 c (mem_of_getLast? _ c hc)).1
  have hsplit := splitSep_interSep o.separator us hne
    (fun u hmem hc => ((hu u hmem).2 o.separator hc).2 rfl)
  have hdef : (MorseCode.new o).decode (interSep o.separator us) =
      ((splitSep o.separator (trimStr (replaceIf isWhitespace [o.separator]
          (interSep o.separator us)))).map
        (fun u =>
          match List.lookup u (swap_characters o) with
          | some ch => ([ch] : Str)
          | none => u)).flatten := rfl
  rw [hdef, hrepl, htrim, hsplit]

/-- C8 (witness): seven dots form no known pattern and pass through. -/
theorem C8_witness :
    (MorseCode.new Options.default).decode
        (interSep Options.default.separator [(".......").data]) =
      (([(".......").data]).map (fun u =>
        match List.lookup u (swap_characters Options.default) with
        | some ch => ([ch] : Str)
        | none => u)).flatten :=
  C8_passthrough Options.default [(".......").data] (by decide) (by decide)

/-- C9: for every Options, encoding and decoding the empty string both return
the empty string. -/
theorem C9_empty (o : Options) :
    (MorseCode.new o).encode [] = [] ∧ (MorseCode.new o).decode [] = [] :=
  ⟨encode_nil o, decode_nil o⟩

/-- C10: whenever the word-space glyph differs from the dot, dash and
separator glyphs and is neither `'0'` nor `'1'`, decode's per-unit resolution
maps the unit consisting of exactly the word-space glyph to the separator
character, via the reversed synthetic Latin entry. -/
theorem C10_space_unit (o : Options)
    (h1 : o.space ≠ o.dot) (h2 : o.space ≠ o.dash) (h3 : o.space ≠ o.separator)
    (h4 : o.space ≠ '0') (h5 : o.space ≠ '1') :
    (match List.lookup [o.space] (swap_characters o) with
     | some ch => ([ch] : Str)
     | none => [o.space]) = [o.separator] := by
  rw [lookup_swap_characters, lookup_space_glyph o h1 h2 h4 h5]

set_option maxRecDepth 10000 in
/-- C10 (witness): with the default Options, the unit `"/"` decodes to a
space, and `decode "- / -"` is `"T T"`. -/
theorem C10_witness :
    (match List.lookup [Options.default.space] (swap_characters Options.default) with
     | some ch => ([ch] : Str)
     | none => [Options.default.space]) = [Options.default.separator] ∧
    (MorseCode.new Options.default).decode ("- / -").data = ("T T").data :=
  ⟨C10_space_unit Options.default (by decide) (by decide) (by decide) (by decide)
    (by decide), by decide⟩

end Morsify
